import Mathlib

/-
Verification of the name-token classification engine and the accumulating
frequency dictionary of the Pumedoro repository
(Code/pumedoro_dictionary_creator.py, class PumedoroDictionaryCreator).

Python strings are modelled as lists of characters (`PyStr`).  The Python
string methods used by the source (`split(' ')`, `upper`, `lower`, `strip`,
`title`, `' '.join`, `in`, `list.index`, `list.remove`) are modelled
explicitly below; `upper`/`lower`/`title` are modelled over the ASCII and
Latin-1 letter ranges, which cover every character appearing in the
constant lists of the source.  The two regular expressions of the source
are modelled as executable Boolean predicates; a `$` anchor in Python also
matches just before a single final newline, which `dropFinalNewline`
accounts for.  The external `fuzzy` phonetic library is out of scope for
the repository and is modelled as an abstract capability that may fail
(`Option`); the `try/except` wrappers `_get_soundex` / `_get_metaphone`
are modelled faithfully on top of it.  The Python dictionary is modelled
as a function from keys to optional records; an uncaught Python exception
is modelled by `Except.error`.
-/

namespace Pumedoro

/-- Python strings, modelled as lists of characters (code points). -/
abbrev PyStr := List Char

/-- Model of Python `str.upper` on one character (ASCII and Latin-1 letters). -/
def pyCharUpper (c : Char) : Char :=
  if decide ('a' ≤ c) && decide (c ≤ 'z') then Char.ofNat (c.toNat - 32)
  else if decide ('à' ≤ c) && decide (c ≤ 'þ') && !(c == '÷') then Char.ofNat (c.toNat - 32)
  else c

/-- Model of Python `str.lower` on one character (ASCII and Latin-1 letters). -/
def pyCharLower (c : Char) : Char :=
  if decide ('A' ≤ c) && decide (c ≤ 'Z') then Char.ofNat (c.toNat + 32)
  else if decide ('À' ≤ c) && decide (c ≤ 'Þ') && !(c == '×') then Char.ofNat (c.toNat + 32)
  else c

/-- Model of Python `str.upper`. -/
def pyUpper (s : PyStr) : PyStr := s.map pyCharUpper

/-- Model of Python `str.lower`. -/
def pyLower (s : PyStr) : PyStr := s.map pyCharLower

/-- The characters removed by Python `str.strip()` (ASCII whitespace). -/
def pyIsSpaceChar (c : Char) : Bool :=
  c == ' ' || c == '\t' || c == '\n' || c == '\r' || c == '\x0b' || c == '\x0c'

/-- Model of Python `str.strip()`. -/
def pyStrip (t : PyStr) : PyStr :=
  ((t.dropWhile pyIsSpaceChar).reverse.dropWhile pyIsSpaceChar).reverse

/-- Auxiliary recursion for `pySplit`; `acc` holds the current token reversed. -/
def pySplitAux : List Char → List Char → List PyStr
  | [], acc => [acc.reverse]
  | c :: cs, acc =>
    if c = ' ' then acc.reverse :: pySplitAux cs []
    else pySplitAux cs (c :: acc)

/-- Model of Python `str.split(' ')`: split at every single space, keeping
empty tokens; the empty string yields one empty token. -/
def pySplit (s : PyStr) : List PyStr := pySplitAux s []

/-- Model of the Python membership test `x in l` for a list of strings. -/
def py_in (x : PyStr) : List PyStr → Bool
  | [] => false
  | y :: ys => if x = y then true else py_in x ys

/-- Model of Python `l.index(x)` (index of the first occurrence), made total
with `Option` (the source only calls it after an `in` guard). -/
def py_index (x : PyStr) : List PyStr → Option Nat
  | [] => none
  | y :: ys => if y = x then some 0 else (py_index x ys).map (fun n => n + 1)

/-- Model of Python `l.remove(x)`: drop the first occurrence of `x`. -/
def py_remove (x : PyStr) : List PyStr → List PyStr
  | [] => []
  | y :: ys => if y = x then ys else y :: py_remove x ys

/-- A character is alphabetic for the purpose of `str.title`
(ASCII and Latin-1 letters). -/
def isPyAlphaChar (c : Char) : Bool :=
  (decide ('a' ≤ c) && decide (c ≤ 'z')) || (decide ('A' ≤ c) && decide (c ≤ 'Z')) ||
    (decide ('À' ≤ c) && decide (c ≤ 'ÿ') && !(c == '×') && !(c == '÷'))

/-- Auxiliary recursion for `pyTitle`: the Boolean records whether the
previous character was alphabetic. -/
def pyTitleAux : List Char → Bool → List Char
  | [], _ => []
  | c :: cs, prevAlpha =>
    (if isPyAlphaChar c then (if prevAlpha then pyCharLower c else pyCharUpper c) else c)
      :: pyTitleAux cs (isPyAlphaChar c)

/-- Model of Python `str.title()`: uppercase every letter that does not
follow a letter, lowercase every other letter. -/
def pyTitle (s : PyStr) : PyStr := pyTitleAux s false

/-- Model of the Python `$` anchor: it also matches just before one final
newline, so full-match tests are run after dropping such a newline. -/
def dropFinalNewline (t : PyStr) : PyStr :=
  match t.getLast? with
  | some c => if c = '\n' then t.dropLast else t
  | none => t

/-- The character class `[A-Z]`. -/
def isUpperAZ (c : Char) : Bool := decide ('A' ≤ c) && decide (c ≤ 'Z')

/-- The character class `[aeiouy]`. -/
def isLowerVowelY (c : Char) : Bool :=
  c == 'a' || c == 'e' || c == 'i' || c == 'o' || c == 'u' || c == 'y'

/-- Model of `GIVEN_2CHAR_NAME_PATTERN = re.compile("^[A-Z][aeiouy]{1}$|^Ng$")`
applied via `re.match` (both alternatives are fully anchored). -/
def given_2char_match (t : PyStr) : Bool :=
  match dropFinalNewline t with
  | [c1, c2] => (isUpperAZ c1 && isLowerVowelY c2) || (c1 == 'N' && c2 == 'g')
  | _ => false

/-- Matches zero or more groups `([A-Z]\.)`. -/
def initial_pairs_core : PyStr → Bool
  | [] => true
  | c1 :: c2 :: rest => isUpperAZ c1 && c2 == '.' && initial_pairs_core rest
  | _ => false

/-- Model of `ABBREVIATION_PATTERN = re.compile("^([A-Z]\\.)+$|^([A-Z]\\.)-([A-Z]\\.)$")`
applied via `re.match`. -/
def abbreviation_match (t0 : PyStr) : Bool :=
  let t := dropFinalNewline t0
  (!t.isEmpty && initial_pairs_core t) ||
    (match t with
     | [a, d1, h, b, d2] => isUpperAZ a && d1 == '.' && h == '-' && isUpperAZ b && d2 == '.'
     | _ => false)

/-- The class constant `PREFIXES` (generational suffixes, upper case),
including its duplicated entries. -/
def PREFIXES : List PyStr :=
  ["JUNIOR", "JUN.", "JR.", "JR", "JR.", "JR", "JR.", "JR", "JÚNIOR",
   "SENIOR", "SEN.", "SR.", "SR", "SR.", "SR", "SR.", "SR", "III", "III", "IV", "IV"].map
    (fun s => s.toList)

/-- The class constant `NOBILIARITY_PARTICLES`, including its duplicated
entries and the two-word entry. -/
def NOBILIARITY_PARTICLES : List PyStr :=
  ["aan", "af", "auf", "da", "dai", "dal", "dalla", "das", "de la", "de", "de", "degli",
   "dei", "del", "della", "dem", "den", "der", "des", "des", "di", "dos", "du", "het",
   "van", "vom", "von", "zu", "zur"].map
    (fun s => s.toList)

/-- The removal condition of step (4) of `_get_given_names`:
`len(item) == 2 and item not in NOBILIARITY_PARTICLES and
not GIVEN_2CHAR_NAME_PATTERN.match(item.strip())`. -/
def two_char_should_remove (item : PyStr) : Bool :=
  decide (item.length = 2) && !(py_in item NOBILIARITY_PARTICLES) &&
    !(given_2char_match (pyStrip item))

/-- Model of the Python loop `for item in items: ... items.remove(item)` of
step (4): the loop walks the live list by index `i`; removal shifts later
elements left so the element after a removed one is skipped.  The fuel is
the initial length, which bounds the number of iterations exactly as the
Python loop is bounded. -/
def handle_two_char_loop : Nat → List PyStr → Nat → List PyStr
  | 0, items, _ => items
  | fuel + 1, items, i =>
    match items[i]? with
    | none => items
    | some item =>
      if two_char_should_remove item then handle_two_char_loop fuel (py_remove item items) (i + 1)
      else handle_two_char_loop fuel items (i + 1)

/-- Step (4) of `_get_given_names`. -/
def handle_two_char (items : List PyStr) : List PyStr :=
  handle_two_char_loop items.length items 0

/-- One iteration of the particle loop of step (5) of `_get_given_names`:
`items_lower = [i.lower() for i in items]; if particle in items_lower:
index = items_lower.index(particle); del items[index:]`. -/
def particle_step (items : List PyStr) (particle : PyStr) : List PyStr :=
  let items_lower := items.map pyLower
  match py_index particle items_lower with
  | some index => items.take index
  | none => items

/-- Step (5) of `_get_given_names`: the loop over `NOBILIARITY_PARTICLES`. -/
def remove_particles (items : List PyStr) : List PyStr :=
  NOBILIARITY_PARTICLES.foldl particle_step items

/-- Steps (1)-(4) of `_get_given_names`: split on space, drop generational
suffixes (case-insensitively via `upper`), drop one-character items, drop
abbreviation-pattern items, then run the two-character removal loop. -/
def given_items_before_particles (name_string : PyStr) : List PyStr :=
  let items := pySplit name_string
  let items := items.filter (fun x => !(py_in (pyUpper x) PREFIXES))
  let items := items.filter (fun x => decide (2 ≤ x.length))
  let items := items.filter (fun x => !(abbreviation_match x))
  handle_two_char items

/-- Model of `_get_given_names` (with the default `apply_strict_rules=False`,
the only way the source calls it). -/
def get_given_names (name_string : PyStr) : List PyStr :=
  remove_particles (given_items_before_particles name_string)

/-- Model of the body of `_get_family_name` on an actual string: split on
space, drop generational suffixes, rejoin with single spaces. -/
def get_family_name_core (name_string : PyStr) : PyStr :=
  let items := pySplit name_string
  let items := items.filter (fun x => !(py_in (pyUpper x) PREFIXES))
  List.intercalate [' '] items

/-- Model of `_get_family_name`: the `try/except` around `split` turns a
`None` input (`AttributeError`) into a `None` result. -/
def get_family_name : Option PyStr → Option PyStr
  | none => none
  | some s => some (get_family_name_core s)

/-- One entry of the internal dictionary: the list
`[occ_given, occ_family, soundex, metaphone]` of the source. -/
structure NameRecord where
  occ_given : Nat
  occ_family : Nat
  soundex : PyStr
  metaphone : PyStr
deriving DecidableEq

/-- The internal dictionary `self._dictionary`, as a map from keys to
optional records. -/
def Dictionary : Type := PyStr → Option NameRecord

/-- The freshly initialized dictionary. -/
def empty_dictionary : Dictionary := fun _ => none

/-- Model of `clear_dictionary` (`self._dictionary.clear()`). -/
def clear_dictionary (_d : Dictionary) : Dictionary := fun _ => none

/-- The external phonetic-encoding capability (the `fuzzy` library is not
part of the repository): each encoder may fail on some inputs, which the
source observes as a raised exception (`none` here). -/
structure PhoneticCapability where
  soundex : PyStr → Option PyStr
  metaphone : PyStr → Option PyStr

/-- Model of `_get_soundex`: `try: return self._soundex(text) except: return ''`. -/
def get_soundex (cap : PhoneticCapability) (text : PyStr) : PyStr :=
  match cap.soundex text with
  | some code => code
  | none => []

/-- Model of `_get_metaphone`: on any failure of the capability the empty
string is returned. -/
def get_metaphone (cap : PhoneticCapability) (text : PyStr) : PyStr :=
  match cap.metaphone text with
  | some code => code
  | none => []

/-- Model of `self._dictionary[k] = r`. -/
def dict_insert (d : Dictionary) (key : PyStr) (r : NameRecord) : Dictionary :=
  fun k => if k = key then some r else d k

/-- Model of the given-name branch of `update_dictionary_from_file`:
increment `occ_given` if the key is present, otherwise create
`[1, 0, soundex, metaphone]`. -/
def add_given (cap : PhoneticCapability) (d : Dictionary) (given_name : PyStr) : Dictionary :=
  match d given_name with
  | some r => dict_insert d given_name { r with occ_given := r.occ_given + 1 }
  | none =>
    dict_insert d given_name
      ⟨1, 0, get_soundex cap given_name, get_metaphone cap given_name⟩

/-- Model of the family-name branch of `update_dictionary_from_file`. -/
def add_family (cap : PhoneticCapability) (d : Dictionary) (family_name : PyStr) : Dictionary :=
  match d family_name with
  | some r => dict_insert d family_name { r with occ_family := r.occ_family + 1 }
  | none =>
    dict_insert d family_name
      ⟨0, 1, get_soundex cap family_name, get_metaphone cap family_name⟩

/-- Model of the body of the per-author loop of `update_dictionary_from_file`,
for an author whose `GivenName` text is an actual string: classify the
given-name field, title-case and count each token, then classify the
family-name field and, unless it is `None`, title-case and count it. -/
def update_author (cap : PhoneticCapability) (d : Dictionary)
    (given_name_raw : PyStr) (family_name_raw : Option PyStr) : Dictionary :=
  let given_names := get_given_names given_name_raw
  let d := given_names.foldl (fun d gn => add_given cap d (pyTitle gn)) d
  match get_family_name family_name_raw with
  | none => d
  | some family_name => add_family cap d (pyTitle family_name)

/-- One `<Author>` element: the `.text` of `<GivenName>` and `<FamilyName>`,
each `None` when the element is empty. -/
structure AuthorRecord where
  given_name_raw : Option PyStr
  family_name_raw : Option PyStr

/-- Model of the per-author loop body at the exception level: when the
`GivenName` text is `None`, `_get_given_names` calls `None.split(' ')` and
the resulting `AttributeError` is not caught anywhere in the class, so the
step fails before mutating the dictionary.  (The family-name side is
guarded by the `try/except` inside `_get_family_name`.) -/
def update_author_checked (cap : PhoneticCapability) (d : Dictionary)
    (a : AuthorRecord) : Except Unit Dictionary :=
  match a.given_name_raw with
  | none => Except.error ()
  | some g => Except.ok (update_author cap d g a.family_name_raw)

/-- Model of `update_dictionary_from_file`: the loop over the `<Author>`
elements of one file, with an uncaught exception aborting the whole loop. -/
def update_dictionary_from_file (cap : PhoneticCapability) (d : Dictionary)
    (authors : List AuthorRecord) : Except Unit Dictionary :=
  authors.foldlM (fun d a => update_author_checked cap d a) d

/-- Ingestion of a corpus of well-formed author records (pairs of a
given-name string and an optional family-name string). -/
def ingest_corpus (cap : PhoneticCapability) (corpus : List (PyStr × Option PyStr))
    (d : Dictionary) : Dictionary :=
  corpus.foldl (fun d r => update_author cap d r.1 r.2) d

/-- The operations a caller can perform on the dictionary state: ingest one
author record, or clear the dictionary. -/
inductive DictOp where
  | ingest (given_name_raw : PyStr) (family_name_raw : Option PyStr)
  | clear

/-- Apply one operation to the dictionary. -/
def apply_op (cap : PhoneticCapability) (d : Dictionary) : DictOp → Dictionary
  | DictOp.ingest g f => update_author cap d g f
  | DictOp.clear => clear_dictionary d

/-- Run a sequence of operations starting from the empty dictionary. -/
def run_ops (cap : PhoneticCapability) (ops : List DictOp) : Dictionary :=
  ops.foldl (apply_op cap) empty_dictionary

/-- Merge two dictionaries by summing `occ_given` and `occ_family` per key
(phonetic codes are deterministic in the key, so the first copy is kept). -/
def merge_dictionaries (d1 d2 : Dictionary) : Dictionary := fun k =>
  match d1 k, d2 k with
  | some r1, some r2 =>
    some ⟨r1.occ_given + r2.occ_given, r1.occ_family + r2.occ_family, r1.soundex, r1.metaphone⟩
  | some r1, none => some r1
  | none, some r2 => some r2
  | none, none => none

/-- Double every counter of a dictionary. -/
def double_counts (d : Dictionary) : Dictionary := fun k =>
  (d k).map (fun r => { r with occ_given := 2 * r.occ_given, occ_family := 2 * r.occ_family })

/-- The counters of a dictionary, with the phonetic codes forgotten. -/
def counts_of (d : Dictionary) : PyStr → Option (Nat × Nat) := fun k =>
  (d k).map (fun r => (r.occ_given, r.occ_family))

/-- The effect of `add_given` on the counters alone. -/
def bump_given (f : PyStr → Option (Nat × Nat)) (n : PyStr) : PyStr → Option (Nat × Nat) :=
  fun k => if k = n then
    (match f n with
     | some c => some (c.1 + 1, c.2)
     | none => some (1, 0))
  else f k

/-- The effect of `add_family` on the counters alone. -/
def bump_family (f : PyStr → Option (Nat × Nat)) (n : PyStr) : PyStr → Option (Nat × Nat) :=
  fun k => if k = n then
    (match f n with
     | some c => some (c.1, c.2 + 1)
     | none => some (0, 1))
  else f k

/-- The effect of `update_author` on the counters alone; it does not
mention the phonetic capability. -/
def counts_update_author (f : PyStr → Option (Nat × Nat)) (g : PyStr)
    (fam : Option PyStr) : PyStr → Option (Nat × Nat) :=
  let f := (get_given_names g).foldl (fun f gn => bump_given f (pyTitle gn)) f
  match get_family_name fam with
  | none => f
  | some fn => bump_family f (pyTitle fn)

/-- Read one key out of the result of a file ingestion; `none` when the
ingestion aborted with an exception. -/
def dict_at (e : Except Unit Dictionary) (k : PyStr) : Option NameRecord :=
  match e with
  | Except.ok d => d k
  | Except.error _ => none

/-- Whether a file ingestion aborted with an uncaught exception. -/
def is_ingestion_error (e : Except Unit Dictionary) : Bool :=
  match e with
  | Except.ok _ => false
  | Except.error _ => true

/-- A phonetic capability that fails on every input. -/
def fail_capability : PhoneticCapability :=
  ⟨fun _ => none, fun _ => none⟩

/-- A phonetic capability that returns the input itself as both codes. -/
def echo_capability : PhoneticCapability :=
  ⟨fun t => some t, fun t => some t⟩

end Pumedoro

namespace Pumedoro

/-! Helper lemmas about the particle-removal loop of `_get_given_names`. -/

/-- One particle iteration truncates the list at the first token whose
lowercase form equals that particle. -/
theorem particle_step_eq_takeWhile (p : PyStr) (items : List PyStr) :
    particle_step items p = items.takeWhile (fun t => !(pyLower t == p)) := by
  induction items with
  | nil => rfl
  | cons t ts ih =>
    by_cases h : pyLower t = p
    · simp [particle_step, py_index, h]
    · have hstep : particle_step (t :: ts) p =
          (match py_index p (ts.map pyLower) with
           | some i => (t :: ts).take (i + 1)
           | none => t :: ts) := by
        simp only [particle_step, List.map_cons, py_index, if_neg h]
        cases py_index p (ts.map pyLower) <;> rfl
      rw [hstep, List.takeWhile_cons_of_pos (by simp [h])]
      cases hidx : py_index p (ts.map pyLower) with
      | none =>
        have h2 := ih
        simp only [particle_step, hidx] at h2
        rw [← h2]
      | some i =>
        have h2 := ih
        simp only [particle_step, hidx] at h2
        show t :: List.take i ts = t :: List.takeWhile (fun t => !(pyLower t == p)) ts
        rw [h2]

/-- The whole particle loop truncates the list at the first token whose
lowercase form is a member of the particle list, whatever the particle
list is. -/
theorem foldl_particle_step_eq_takeWhile (Q : List PyStr) :
    ∀ l : List PyStr,
      Q.foldl particle_step l = l.takeWhile (fun t => !(py_in (pyLower t) Q)) := by
  induction Q with
  | nil =>
    intro l
    simp only [List.foldl_nil]
    exact (List.takeWhile_eq_self_iff.mpr (fun x _ => rfl)).symm
  | cons p Q' ih =>
    intro l
    rw [List.foldl_cons, ih, particle_step_eq_takeWhile, List.takeWhile_takeWhile]
    congr 1
    funext t
    by_cases h : pyLower t = p <;> simp [py_in, h]

end Pumedoro

namespace Pumedoro

/-- C5: for every raw given-name string, the particle loop of
`_get_given_names` keeps exactly the tokens strictly before the earliest
token that case-insensitively equals a nobiliary particle, discarding the
matched particle and everything after it; in particular the raw string
"Maxi von" yields ["Maxi"]. -/
theorem c5_particle_truncation :
    (∀ s : PyStr, get_given_names s =
      (given_items_before_particles s).takeWhile
        (fun t => !(py_in (pyLower t) NOBILIARITY_PARTICLES))) ∧
    get_given_names ("Maxi von".toList) = [("Maxi".toList)] := by
  constructor
  · intro s
    show NOBILIARITY_PARTICLES.foldl particle_step (given_items_before_particles s) = _
    exact foldl_particle_step_eq_takeWhile NOBILIARITY_PARTICLES
      (given_items_before_particles s)
  · decide

/-- C3 counterexample: contrary to the claim, given-name extraction applied
to "Xu" does not return the empty sequence ('u' is a lowercase vowel, so
"Xu" matches the two-character pattern of the source). -/
theorem c3_counterexample : get_given_names ("Xu".toList) ≠ [] := by decide

/-- C3 (amended): given-name extraction applied to the single-token input
"Xu" returns ["Xu"], because "Xu" matches
`<uppercase letter><one lowercase vowel among a,e,i,o,u,y>`. -/
theorem c3_xu_survives :
    get_given_names ("Xu".toList) = [("Xu".toList)] ∧
    given_2char_match ("Xu".toList) = true := by decide

/-- C2 at the failing input "Xq Zw": both two-character tokens fail the
two-character rule and by the claim both must be removed, but the source
removes elements of `items` while iterating over `items`, so the element
after the removed "Xq" is skipped and the invalid token "Zw" survives into
the result. -/
theorem c2_adjacent_two_char_skip :
    get_given_names ("Xq Zw".toList) = [("Zw".toList)] ∧
    ("Zw".toList : PyStr).length = 2 ∧
    two_char_should_remove ("Zw".toList) = true := by decide

/-- C1 at the failing input: an author whose GivenName element has `None`
text makes `_get_given_names` call `None.split(' ')`; the resulting
`AttributeError` is caught nowhere in the class, so the record's family
name is not processed and the rest of the file scan is aborted.  An empty
(but present) given-name string, by contrast, degrades to no tokens and
the record's family name is still counted. -/
theorem c1_none_given_name_aborts :
    is_ingestion_error (update_dictionary_from_file fail_capability empty_dictionary
      [⟨none, some ("Smith".toList)⟩, ⟨some ("Anna".toList), some ("Brown".toList)⟩]) = true ∧
    is_ingestion_error (update_dictionary_from_file fail_capability empty_dictionary
      [⟨some [], some ("Smith".toList)⟩]) = false ∧
    dict_at (update_dictionary_from_file fail_capability empty_dictionary
      [⟨some [], some ("Smith".toList)⟩]) ("Smith".toList) = some ⟨0, 1, [], []⟩ := by
  refine ⟨rfl, rfl, ?_⟩
  decide

/-- C10: every entry of the nobiliary-particle list is exempt from the
two-character removal condition of step (4), so a particle like "de"
survives to the particle scan, where it truncates the token sequence:
"Anne de Maria" yields ["Anne"], not ["Anne", "Maria"]. -/
theorem c10_particles_exempt_from_two_char_filter :
    NOBILIARITY_PARTICLES.all (fun t => !(two_char_should_remove t)) = true ∧
    handle_two_char [("Anne".toList), ("de".toList), ("Maria".toList)] =
      [("Anne".toList), ("de".toList), ("Maria".toList)] ∧
    get_given_names ("Anne de Maria".toList) = [("Anne".toList)] ∧
    get_given_names ("Anne de Maria".toList) ≠ [("Anne".toList), ("Maria".toList)] := by
  refine ⟨by decide, by decide, by decide, by decide⟩

end Pumedoro

namespace Pumedoro

/-- Every entry of `PREFIXES` is already in Python upper case. -/
theorem prefixes_upper_fixed : PREFIXES.all (fun p => pyUpper p == p) = true := by decide

/-- Membership of `upper(x)` in an upper-case-closed list is the same as
case-insensitive equality (after `pyUpper`) with one of its entries. -/
theorem py_in_upper_eq_any (x : PyStr) :
    ∀ l : List PyStr, l.all (fun p => pyUpper p == p) = true →
      py_in (pyUpper x) l = l.any (fun p => pyUpper x == pyUpper p) := by
  intro l
  induction l with
  | nil => intro _; rfl
  | cons q l2 ih =>
    intro h
    simp only [List.all_cons, Bool.and_eq_true, beq_iff_eq] at h
    obtain ⟨hq, hl⟩ := h
    show (if pyUpper x = q then true else py_in (pyUpper x) l2) = _
    rw [List.any_cons, ih hl, hq]
    by_cases hx : pyUpper x = q <;> simp [hx]

/-- C6: `_get_family_name` removes exactly the space-delimited tokens that
case-insensitively equal a generational suffix (comparison via Python
`upper`), rejoins the remaining tokens with a single space in order, and
retains nobiliary particles (no particle is case-insensitively a suffix):
"Leite Júnior" yields "Leite" and "von Hardenberg" stays intact. -/
theorem c6_family_name_suffix_removal :
    (∀ s : PyStr, get_family_name_core s =
      List.intercalate [' ']
        ((pySplit s).filter (fun t => !(PREFIXES.any (fun p => pyUpper t == pyUpper p))))) ∧
    NOBILIARITY_PARTICLES.all (fun t => !(py_in (pyUpper t) PREFIXES)) = true ∧
    get_family_name_core ("Leite Júnior".toList) = ("Leite".toList) ∧
    get_family_name_core ("von Hardenberg".toList) = ("von Hardenberg".toList) := by
  refine ⟨?_, by decide, by decide, by decide⟩
  intro s
  show List.intercalate [' ']
      ((pySplit s).filter (fun x => !(py_in (pyUpper x) PREFIXES))) = _
  congr 1
  apply List.filter_congr
  intro t _
  rw [py_in_upper_eq_any t PREFIXES prefixes_upper_fixed]

/-- Splitting a string of spaces yields only empty tokens. -/
theorem pySplitAux_all_space :
    ∀ s acc : List Char, (∀ c ∈ s, c = ' ') →
      pySplitAux s acc = acc.reverse :: List.replicate s.length [] := by
  intro s
  induction s with
  | nil => intro acc _; rfl
  | cons c cs ih =>
    intro acc h
    have hc : c = ' ' := h c (List.mem_cons_self c cs)
    subst hc
    show (if (' ' : Char) = ' ' then List.reverse acc :: pySplitAux cs [] else
      pySplitAux cs (' ' :: acc)) = _
    rw [if_pos rfl, ih [] (fun c hc => h c (List.mem_cons_of_mem _ hc))]
    simp [List.replicate_succ]

/-- The one-character filter of `_get_given_names` wipes out a list of
empty tokens (they pass the suffix filter but fail the length filter). -/
theorem filters_of_replicate_empty :
    ∀ n : Nat,
      ((List.replicate n ([] : PyStr)).filter
          (fun x => !(py_in (pyUpper x) PREFIXES))).filter
        (fun x => decide (2 ≤ x.length)) = [] := by
  intro n
  induction n with
  | zero => rfl
  | succ n ih =>
    rw [List.replicate_succ, List.filter_cons, if_pos (by decide), List.filter_cons,
      if_neg (by decide)]
    exact ih

/-- C4 counterexample: the string of three tabs consists solely of
whitespace characters, yet given-name extraction returns a non-empty
sequence (only the ASCII space is a separator, so the tab token survives
every filter). -/
theorem c4_counterexample :
    (∀ c ∈ ("\t\t\t".toList : PyStr), pyIsSpaceChar c = true) ∧
    get_given_names ("\t\t\t".toList) ≠ [] := by
  exact ⟨by decide, by decide⟩

/-- C4 (amended): for every raw given-name string consisting solely of
space characters (including the empty string), given-name extraction
returns the empty sequence. -/
theorem c4_space_only_empty (s : PyStr) (h : ∀ c ∈ s, c = ' ') :
    get_given_names s = [] := by
  have hsplit : pySplit s = List.replicate (s.length + 1) [] := by
    show pySplitAux s [] = _
    rw [pySplitAux_all_space s [] h]
    rfl
  show remove_particles (handle_two_char
    ((((pySplit s).filter (fun x => !(py_in (pyUpper x) PREFIXES))).filter
        (fun x => decide (2 ≤ x.length))).filter
      (fun x => !(abbreviation_match x)))) = []
  rw [hsplit, filters_of_replicate_empty (s.length + 1)]
  rfl

/-- Witness for the amended C4 at the concrete input of two spaces. -/
theorem c4_space_only_empty_witness :
    (∀ c ∈ ([' ', ' '] : PyStr), c = ' ') ∧ get_given_names [' ', ' '] = [] :=
  ⟨by decide, c4_space_only_empty [' ', ' '] (by decide)⟩

/-- C7: ingesting any corpus into two independent empty dictionaries and
merging them by summing `occ_given` and `occ_family` per key gives exactly
the dictionary of one ingestion with every count doubled — ingestion is a
pure counting operation with no state beyond the key-to-record mapping. -/
theorem c7_merge_equals_double (cap : PhoneticCapability)
    (corpus : List (PyStr × Option PyStr)) :
    merge_dictionaries (ingest_corpus cap corpus empty_dictionary)
        (ingest_corpus cap corpus empty_dictionary) =
      double_counts (ingest_corpus cap corpus empty_dictionary) := by
  funext k
  cases h : ingest_corpus cap corpus empty_dictionary k with
  | none => simp [merge_dictionaries, double_counts, h]
  | some r => simp [merge_dictionaries, double_counts, h, Nat.two_mul]

end Pumedoro

namespace Pumedoro

/-- Inserting a record whose counters sum to at least one preserves the
counter invariant. -/
theorem dict_insert_sum_ge (d : Dictionary) (key : PyStr) (r : NameRecord)
    (hd : ∀ k q, d k = some q → 1 ≤ q.occ_given + q.occ_family)
    (hr : 1 ≤ r.occ_given + r.occ_family) :
    ∀ k q, dict_insert d key r k = some q → 1 ≤ q.occ_given + q.occ_family := by
  intro k q h
  unfold dict_insert at h
  by_cases hk : k = key
  · rw [if_pos hk] at h
    exact (Option.some.inj h) ▸ hr
  · rw [if_neg hk] at h
    exact hd k q h

/-- The given-name branch of ingestion preserves the counter invariant. -/
theorem add_given_sum_ge (cap : PhoneticCapability) (d : Dictionary) (n : PyStr)
    (hd : ∀ k q, d k = some q → 1 ≤ q.occ_given + q.occ_family) :
    ∀ k q, add_given cap d n k = some q → 1 ≤ q.occ_given + q.occ_family := by
  unfold add_given
  cases hn : d n with
  | some r => exact dict_insert_sum_ge d n _ hd (by simp; omega)
  | none => exact dict_insert_sum_ge d n _ hd (by simp)

/-- The family-name branch of ingestion preserves the counter invariant. -/
theorem add_family_sum_ge (cap : PhoneticCapability) (d : Dictionary) (n : PyStr)
    (hd : ∀ k q, d k = some q → 1 ≤ q.occ_given + q.occ_family) :
    ∀ k q, add_family cap d n k = some q → 1 ≤ q.occ_given + q.occ_family := by
  unfold add_family
  cases hn : d n with
  | some r => exact dict_insert_sum_ge d n _ hd (by simp; omega)
  | none => exact dict_insert_sum_ge d n _ hd (by simp)

/-- The loop over the given-name tokens preserves the counter invariant. -/
theorem foldl_add_given_sum_ge (cap : PhoneticCapability) (ts : List PyStr) :
    ∀ d : Dictionary, (∀ k q, d k = some q → 1 ≤ q.occ_given + q.occ_family) →
      ∀ k q, (ts.foldl (fun d gn => add_given cap d (pyTitle gn)) d) k = some q →
        1 ≤ q.occ_given + q.occ_family := by
  induction ts with
  | nil => intro d hd; exact hd
  | cons t ts ih => intro d hd; exact ih _ (add_given_sum_ge cap d (pyTitle t) hd)

/-- Ingesting one author record preserves the counter invariant. -/
theorem update_author_sum_ge (cap : PhoneticCapability) (d : Dictionary)
    (g : PyStr) (fam : Option PyStr)
    (hd : ∀ k q, d k = some q → 1 ≤ q.occ_given + q.occ_family) :
    ∀ k q, update_author cap d g fam k = some q → 1 ≤ q.occ_given + q.occ_family := by
  unfold update_author
  cases hf : get_family_name fam with
  | none =>
    simp only [hf]
    exact foldl_add_given_sum_ge cap (get_given_names g) d hd
  | some fn =>
    simp only [hf]
    exact add_family_sum_ge cap _ _ (foldl_add_given_sum_ge cap (get_given_names g) d hd)

/-- Every sequence of ingest/clear operations preserves the counter
invariant. -/
theorem run_ops_sum_ge (cap : PhoneticCapability) (ops : List DictOp) :
    ∀ d : Dictionary, (∀ k q, d k = some q → 1 ≤ q.occ_given + q.occ_family) →
      ∀ k q, (ops.foldl (apply_op cap) d) k = some q → 1 ≤ q.occ_given + q.occ_family := by
  induction ops with
  | nil => intro d hd; exact hd
  | cons op ops ih =>
    intro d hd
    refine ih _ ?_
    cases op with
    | ingest g f => exact update_author_sum_ge cap d g f hd
    | clear => intro k q h; simp [apply_op, clear_dictionary] at h

/-- C8: after every sequence of ingestion and clear operations starting
from the empty dictionary, every name present in the dictionary satisfies
`occ_given + occ_family >= 1` (entries are created with one counter at 1
and only ever incremented; `clear` removes everything at once). -/
theorem c8_counter_invariant (cap : PhoneticCapability) (ops : List DictOp)
    (k : PyStr) (r : NameRecord) (h : run_ops cap ops k = some r) :
    1 ≤ r.occ_given + r.occ_family := by
  refine run_ops_sum_ge cap ops empty_dictionary ?_ k r h
  intro k q hq
  simp [empty_dictionary] at hq

/-- Witness for C8 at a concrete operation sequence and key. -/
theorem c8_counter_invariant_witness :
    run_ops fail_capability [DictOp.ingest ("Anna".toList) (some ("Smith".toList))]
        ("Anna".toList) = some ⟨1, 0, [], []⟩ ∧
    1 ≤ (1 : Nat) + 0 :=
  ⟨by decide,
   c8_counter_invariant fail_capability
     [DictOp.ingest ("Anna".toList) (some ("Smith".toList))]
     ("Anna".toList) ⟨1, 0, [], []⟩ (by decide)⟩

end Pumedoro

namespace Pumedoro

/-- The effect of `add_given` on the counters is `bump_given`, whatever the
phonetic capability is. -/
theorem counts_add_given (cap : PhoneticCapability) (d : Dictionary) (n : PyStr) :
    counts_of (add_given cap d n) = bump_given (counts_of d) n := by
  funext k
  unfold counts_of add_given bump_given dict_insert
  cases hn : d n with
  | some r => by_cases hk : k = n <;> simp [hn, hk]
  | none => by_cases hk : k = n <;> simp [hn, hk]

/-- The effect of `add_family` on the counters is `bump_family`, whatever
the phonetic capability is. -/
theorem counts_add_family (cap : PhoneticCapability) (d : Dictionary) (n : PyStr) :
    counts_of (add_family cap d n) = bump_family (counts_of d) n := by
  funext k
  unfold counts_of add_family bump_family dict_insert
  cases hn : d n with
  | some r => by_cases hk : k = n <;> simp [hn, hk]
  | none => by_cases hk : k = n <;> simp [hn, hk]

/-- The token loop of ingestion acts on the counters independently of the
phonetic capability. -/
theorem counts_foldl_given (cap : PhoneticCapability) (ts : List PyStr) :
    ∀ d : Dictionary,
      counts_of (ts.foldl (fun d gn => add_given cap d (pyTitle gn)) d) =
        ts.foldl (fun f gn => bump_given f (pyTitle gn)) (counts_of d) := by
  induction ts with
  | nil => intro d; rfl
  | cons t ts ih =>
    intro d
    rw [List.foldl_cons, List.foldl_cons, ih, counts_add_given]

/-- Ingesting one author record acts on the counters independently of the
phonetic capability. -/
theorem counts_update_author_eq (cap : PhoneticCapability) (d : Dictionary)
    (g : PyStr) (fam : Option PyStr) :
    counts_of (update_author cap d g fam) = counts_update_author (counts_of d) g fam := by
  unfold update_author counts_update_author
  cases hf : get_family_name fam with
  | none =>
    simp only [hf]
    exact counts_foldl_given cap (get_given_names g) d
  | some fn =>
    simp only [hf]
    rw [counts_add_family, counts_foldl_given]

/-- Corpus ingestion acts on the counters independently of the phonetic
capability. -/
theorem counts_ingest (cap : PhoneticCapability) (corpus : List (PyStr × Option PyStr)) :
    ∀ d : Dictionary,
      counts_of (ingest_corpus cap corpus d) =
        corpus.foldl (fun f r => counts_update_author f r.1 r.2) (counts_of d) := by
  induction corpus with
  | nil => intro d; rfl
  | cons r rs ih =>
    intro d
    show counts_of (ingest_corpus cap rs (update_author cap d r.1 r.2)) = _
    rw [ih, counts_update_author_eq]
    rfl

/-- C9: when the phonetic capability fails on a name, the `try/except`
wrappers store the empty string for that code, and the failure never
aborts ingestion: the keys and counters produced by ingesting any corpus
are the same under every phonetic capability. -/
theorem c9_phonetic_failure_isolated :
    (∀ (cap : PhoneticCapability) (t : PyStr), cap.soundex t = none →
      get_soundex cap t = []) ∧
    (∀ (cap : PhoneticCapability) (t : PyStr), cap.metaphone t = none →
      get_metaphone cap t = []) ∧
    (∀ (cap cap2 : PhoneticCapability) (corpus : List (PyStr × Option PyStr)),
      counts_of (ingest_corpus cap corpus empty_dictionary) =
        counts_of (ingest_corpus cap2 corpus empty_dictionary)) := by
  refine ⟨?_, ?_, ?_⟩
  · intro cap t h
    unfold get_soundex
    rw [h]
  · intro cap t h
    unfold get_metaphone
    rw [h]
  · intro cap cap2 corpus
    rw [counts_ingest cap corpus empty_dictionary, counts_ingest cap2 corpus empty_dictionary]

/-- Witness for C9: an always-failing capability yields empty codes, and a
concrete corpus produces the same counters under the failing capability as
under a succeeding one. -/
theorem c9_phonetic_failure_isolated_witness :
    (fail_capability.soundex ("Q".toList) = none ∧
      get_soundex fail_capability ("Q".toList) = []) ∧
    (fail_capability.metaphone ("Q".toList) = none ∧
      get_metaphone fail_capability ("Q".toList) = []) ∧
    counts_of (ingest_corpus fail_capability
        [(("Anna".toList), some ("Smith".toList))] empty_dictionary) =
      counts_of (ingest_corpus echo_capability
        [(("Anna".toList), some ("Smith".toList))] empty_dictionary) :=
  ⟨⟨rfl, c9_phonetic_failure_isolated.1 fail_capability ("Q".toList) rfl⟩,
   ⟨rfl, c9_phonetic_failure_isolated.2.1 fail_capability ("Q".toList) rfl⟩,
   c9_phonetic_failure_isolated.2.2 fail_capability echo_capability
     [(("Anna".toList), some ("Smith".toList))]⟩

end Pumedoro
